import Mathlib

/-!
The program yt-db-completer: reconciliation of a yt-dlp metadata dump against a
directory of downloaded videos.

A shallow embedding of `src/main.go`.  Go strings are Lean `String`s, Go slices are
Lean `List`s, and every `for ... range` loop of `main` is a left fold whose step
function is the loop body.  Library calls (`strings.Fields`, `strings.Trim`,
`strings.HasSuffix`, `sort.Slice`) are embedded from their documented behaviour.

A Lean `String` is a sequence of Unicode code points where Go has the bytes of their
UTF-8 encoding.  The operations used by `main` (equality, `<`, suffix test against an
ASCII suffix, splitting at white space, trimming an ASCII bracket) give the same
result on both views of a well-formed string.
-/

namespace YtDbCompleter

/-! ## Data model -/

/-- The Go struct `Metadata` (main.go 24-29), one record of the yt-dlp dump. -/
structure Metadata where
  Id : String
  Title : String
  Date : String
  PlaylistTitle : String
deriving DecidableEq

/-- The Go type `Category` (main.go 22) is a named string type. -/
abbrev Category := String

/-- Constant `All` (main.go 14). -/
def All : Category := "all"
/-- Constant `Shorts` (main.go 15). -/
def Shorts : Category := "shorts"
/-- Constant `Video` (main.go 16). -/
def Video : Category := "video"
/-- Constant `Livestream` (main.go 17). -/
def Livestream : Category := "livestream"
/-- Constant `Membership` (main.go 19). -/
def Membership : Category := "membership"

/-! ## Membership helpers (main.go 31-49) -/

/-- The function `containsStr` (main.go 31-39): linear scan with early return. -/
def containsStr : List String → String → Bool
  | [], _ => false
  | x :: s, id => if x == id then true else containsStr s id

/-- The function `containsMeta` (main.go 41-49): linear scan over the record ids. -/
def containsMeta : List Metadata → String → Bool
  | [], _ => false
  | x :: s, id => if x.Id == id then true else containsMeta s id

/-! ## Reconciliation loops (main.go 184-194) -/

/-- Body of the loop at main.go 184-188: append `meta` when its id is not scanned. -/
def missingStep (existingIds : List String) (missingMetadata : List Metadata)
    (meta : Metadata) : List Metadata :=
  if !containsStr existingIds meta.Id then missingMetadata ++ [meta] else missingMetadata

/-- The loop at main.go 184-188, started from the empty `missingMetadata`. -/
def computeMissing (allMetadata : List Metadata) (existingIds : List String) : List Metadata :=
  allMetadata.foldl (missingStep existingIds) []

/-- Body of the loop at main.go 190-194: append `id` when no record carries it. -/
def extraStep (allMetadata : List Metadata) (extraIds : List String) (id : String) :
    List String :=
  if !containsMeta allMetadata id then extraIds ++ [id] else extraIds

/-- The loop at main.go 190-194, started from the empty `extraIds`. -/
def computeExtra (allMetadata : List Metadata) (existingIds : List String) : List String :=
  existingIds.foldl (extraStep allMetadata) []

/-! ## Metadata loader (main.go 131-162) -/

/-- The library function `strings.HasSuffix`: `len(s) >= len(suffix)` and the last
`len(suffix)` positions of `s` equal `suffix`. -/
def HasSuffix (s suffix : String) : Bool :=
  decide (suffix.data.length ≤ s.data.length)
    && (s.data.drop (s.data.length - suffix.data.length) == suffix.data)

/-- The `switch *cat` of main.go 137-155: `true` when control reaches the `append` at
line 157, `false` when a `continue` is taken.  A value matching no case falls through
to the `append`, as in Go. -/
def retained (cat : Category) (metadata : Metadata) : Bool :=
  if cat == All then true
  else if cat == Shorts then HasSuffix metadata.PlaylistTitle "Shorts"
  else if cat == Video then HasSuffix metadata.PlaylistTitle "Videos"
  else if cat == Livestream then HasSuffix metadata.PlaylistTitle "Live"
  else if cat == Membership then HasSuffix metadata.PlaylistTitle "Membership"
  else true

/-- Body of the loop at main.go 131-158 for one unmarshalled record. -/
def loadStep (cat : Category) (allMetadata : List Metadata) (metadata : Metadata) :
    List Metadata :=
  if retained cat metadata then allMetadata ++ [metadata] else allMetadata

/-- The loop at main.go 131-158 over the unmarshalled records, in input order. -/
def loadRecords (cat : Category) (records : List Metadata) : List Metadata :=
  records.foldl (loadStep cat) []

/-- Go's `<` on strings, position by position and then by length.  Go compares
bytes; on well-formed UTF-8 that order coincides with the code point order used
here. -/
def lessChars : List Char → List Char → Bool
  | [], [] => false
  | [], _ :: _ => true
  | _ :: _, [] => false
  | a :: as, b :: bs =>
    if a.toNat < b.toNat then true
    else if b.toNat < a.toNat then false
    else lessChars as bs

/-- The closure given to `sort.Slice` at main.go 160-162, on the two records. -/
def dateLess (a b : Metadata) : Bool :=
  lessChars a.Date.data b.Date.data

/-- The order relation "not after": `b` does not sort strictly before `a`. -/
def dateLE (a b : Metadata) : Prop :=
  dateLess b a = false

instance dateLE_decidable : DecidableRel dateLE :=
  fun a b => inferInstanceAs (Decidable (dateLess b a = false))

/-- Documented contract of the library function `sort.Slice` for the closure
`dateLess`: the slice is rearranged (a permutation) so that no later element is
less than an earlier one.  The library states that the sort is not guaranteed to be
stable, so nothing is assumed about the order of records with equal dates. -/
def SortSliceContract (sortSlice : List Metadata → List Metadata) : Prop :=
  ∀ l, List.Perm (sortSlice l) l ∧ List.Pairwise dateLE (sortSlice l)

/-- The metadata loader, main.go 131-162: filter loop, then `sort.Slice`. -/
def loader (sortSlice : List Metadata → List Metadata) (cat : Category)
    (records : List Metadata) : List Metadata :=
  sortSlice (loadRecords cat records)

/-- A sorting function meeting `SortSliceContract` that keeps ties in input order
(insertion of each record before the first strictly later one). -/
def stableSortSlice (l : List Metadata) : List Metadata :=
  List.insertionSort dateLE l

/-- A sorting function meeting `SortSliceContract` that reverses ties: the same
insertion sort run over the slice read back to front. -/
def reversingSortSlice (l : List Metadata) : List Metadata :=
  List.insertionSort dateLE l.reverse

/-- A catalog of twelve records dated 2020-01-02 (ids `v00` to `v11`, in that input
order) followed by one record dated 2020-01-01 (id `v12`). -/
def tiedRecords : List Metadata :=
  [⟨"v00", "", "20200102", ""⟩, ⟨"v01", "", "20200102", ""⟩, ⟨"v02", "", "20200102", ""⟩,
   ⟨"v03", "", "20200102", ""⟩, ⟨"v04", "", "20200102", ""⟩, ⟨"v05", "", "20200102", ""⟩,
   ⟨"v06", "", "20200102", ""⟩, ⟨"v07", "", "20200102", ""⟩, ⟨"v08", "", "20200102", ""⟩,
   ⟨"v09", "", "20200102", ""⟩, ⟨"v10", "", "20200102", ""⟩, ⟨"v11", "", "20200102", ""⟩,
   ⟨"v12", "", "20200101", ""⟩]

/-! ## Directory scanner (main.go 169-182) -/

/-- One `os.DirEntry` of the listing: its `Name()` and `IsDir()`. -/
structure DirEntry where
  Name : String
  IsDir : Bool
deriving DecidableEq

/-- The library predicate `unicode.IsSpace`: the Unicode White_Space code points. -/
def isSpace (r : Char) : Bool :=
  let n := r.toNat
  (9 ≤ n && n ≤ 13) || n == 32 || n == 0x85 || n == 0xA0 || n == 0x1680
    || (0x2000 ≤ n && n ≤ 0x200A) || n == 0x2028 || n == 0x2029 || n == 0x202F
    || n == 0x205F || n == 0x3000

/-- The scan of `strings.Fields` (`FieldsFunc` with `unicode.IsSpace`): `cur` holds
the characters of the field being read, empty when no field is open. -/
def fieldsLoop : List Char → List Char → List String
  | [], cur => if cur.isEmpty then [] else [String.mk cur]
  | r :: rest, cur =>
    if isSpace r then
      (if cur.isEmpty then fieldsLoop rest [] else String.mk cur :: fieldsLoop rest [])
    else fieldsLoop rest (cur ++ [r])

/-- The library function `strings.Fields`: the maximal runs of non-space characters. -/
def Fields (s : String) : List String :=
  fieldsLoop s.data []

/-- The library function `strings.Trim`: every leading and every trailing character
that occurs in `cutset` is removed. -/
def Trim (s cutset : String) : String :=
  String.mk (List.rdropWhile (fun c => cutset.data.contains c)
    (List.dropWhile (fun c => cutset.data.contains c) s.data))

/-- Lines 179-180 of main.go for one directory name; `none` stands for the run-time
panic of `fields[1]` (index out of range) when the name has fewer than two fields. -/
def extractId (name : String) : Option String :=
  match Fields name with
  | _ :: f :: _ => some (Trim (Trim f "[") "]")
  | _ => none

/-- Body of the loop at main.go 169-182; `none` is the panic of `extractId`. -/
def scanStep (existingIds : List String) (entry : DirEntry) : Option (List String) :=
  if !entry.IsDir then some existingIds
  else match extractId entry.Name with
    | some id => some (existingIds ++ [id])
    | none => none

/-- The loop at main.go 169-182 over the directory listing: `some existingIds` when
it runs to the end, `none` when an iteration panics (the remaining entries are then
never visited). -/
def scanEntries (entries : List DirEntry) : Option (List String) :=
  entries.foldlM scanStep []

/-! ## Report (main.go 196-208) -/

/-- The summary line printed at main.go 196-199, with the integers it formats. -/
inductive Summary where
  | noMissing (found : Int)
  | stillMissing (found still total : Int)
deriving DecidableEq

/-- The branch of main.go 196-199 and the arguments of its `Printf`. -/
def summaryLine (allMetadata : List Metadata) (existingIds : List String)
    (missingMetadata : List Metadata) (extraIds : List String) : Summary :=
  if missingMetadata.length == 0 then
    Summary.noMissing existingIds.length
  else
    Summary.stillMissing existingIds.length
      ((allMetadata.length : Int) - ((existingIds.length : Int) - (extraIds.length : Int)))
      allMetadata.length

/-- The catalog total shown by a summary line, when the line shows one. -/
def Summary.printedTotal : Summary → Option Int
  | Summary.noMissing _ => none
  | Summary.stillMissing _ _ total => some total

/-- What a run prints: the summary line, the missing records (when there are any)
and the extra identifiers (when there are any). -/
structure Report where
  summary : Summary
  missing : List Metadata
  extra : List String
deriving DecidableEq

/-- Reconciliation and report, main.go 184-208, on the loaded catalog and the
scanned identifiers. -/
def report (allMetadata : List Metadata) (existingIds : List String) : Report :=
  let missingMetadata := computeMissing allMetadata existingIds
  let extraIds := computeExtra allMetadata existingIds
  { summary := summaryLine allMetadata existingIds missingMetadata extraIds
    missing := missingMetadata
    extra := extraIds }

/-- Loader, scanner and reconciler in sequence (main.go 131-208) for a readable
listing; `none` when the scanner panics, in which case nothing is reported. -/
def reconcile (sortSlice : List Metadata → List Metadata) (cat : Category)
    (records : List Metadata) (entries : List DirEntry) : Option Report :=
  let allMetadata := loader sortSlice cat records
  match scanEntries entries with
  | some existingIds => some (report allMetadata existingIds)
  | none => none

/-! ## Unmarshalling of the input lines (main.go 131-135) -/

/-- What `json.Unmarshal` leaves behind for one input line (main.go 134-135): the
value of the variable `metadata` after the call, and whether the call returned an
error.  `main` discards the error, so only `metadata` reaches the loop body. -/
structure Unmarshalled where
  metadata : Metadata
  failed : Bool
deriving DecidableEq

/-- The zero value `Metadata{}` of `var metadata Metadata` (main.go 134). -/
def zeroMetadata : Metadata := ⟨"", "", "", ""⟩

/-- The outcome for a line that is not well-formed JSON: the decoder checks the syntax
of the whole input before it stores anything, so `metadata` keeps its zero value and
the call returns a syntax error. -/
def Unmarshalled.syntaxError : Unmarshalled := ⟨zeroMetadata, true⟩

/-- The loop at main.go 131-158 over the input lines, each given by its unmarshalling
outcome: the body runs on `metadata` whether or not the call failed. -/
def loadLines (cat : Category) (lines : List Unmarshalled) : List Metadata :=
  loadRecords cat (lines.map (fun u => u.metadata))

/-! ## Category flag (main.go 51-71) -/

/-- Result of a call of `Category.Set`: a normal return with the stored category and
the returned error (`none` for `nil`), or a panic with its message. -/
inductive SetResult where
  | returned (c : Category) (err : Option String)
  | panicked (message : String)
deriving DecidableEq

/-- The method `Category.Set` (main.go 55-71).  The library function
`strings.ToLower` depends on the Unicode case tables and is the parameter `ToLower`;
the old value of the receiver is overwritten and plays no part. -/
def Category.Set (ToLower : String → String) (value : String) : SetResult :=
  let v := ToLower value
  if v == "all" then SetResult.returned All none
  else if v == "shorts" then SetResult.returned Shorts none
  else if v == "video" then SetResult.returned Video none
  else if v == "livestream" then SetResult.returned Livestream none
  else if v == "membership" then SetResult.returned Membership none
  else SetResult.panicked ("Invalid category: " ++ value)

/-- The method `Category.String` (main.go 51-53). -/
def Category.String (c : Category) : String := c

/-- The action of `strings.ToLower` on a string of ASCII characters: each of `A` to
`Z` is moved to its lower-case letter, every other character is kept. -/
def lowerASCII (s : String) : String :=
  String.mk (s.data.map (fun c =>
    if 65 ≤ c.toNat ∧ c.toNat ≤ 90 then Char.ofNat (c.toNat + 32) else c))

/-! ## Dump file (main.go 210-221) -/

/-- Body of the loop at main.go 218-220: `file.WriteString(meta.Id + "\n")` appends
to what has been written so far. -/
def dumpStep (content : String) (meta : Metadata) : String :=
  content ++ (meta.Id ++ "\n")

/-- The content of `missing.txt` after the loop at main.go 218-220, the file having
been created empty by `os.Create`. -/
def dumpText (missingMetadata : List Metadata) : String :=
  missingMetadata.foldl dumpStep ""

/-- Reading side of the dump round trip, which the program does not contain: the
text is cut after each newline character and the newline is dropped; `cur` holds the
line being read.  Characters after the last newline form a last line. -/
def splitLinesLoop : List Char → List Char → List String
  | [], cur => if cur.isEmpty then [] else [String.mk cur]
  | c :: rest, cur =>
    if c == '\n' then String.mk cur :: splitLinesLoop rest []
    else splitLinesLoop rest (cur ++ [c])

/-- The lines of a text, as read back from the dump file. -/
def splitLines (text : String) : List String :=
  splitLinesLoop text.data []

/-! ## The whole run (main.go 79-222) -/

/-- What one run of `main` receives from the command line and the file system. -/
structure Run where
  args : Nat
  cat : Category
  dumpToFile : Bool
  openDirFails : Bool
  openFileFails : Bool
  statFails : Bool
  statIsDir : Bool
  lines : List Unmarshalled
  entries : List DirEntry
  readDirFails : Bool
  createFails : Bool

/-- How a run of `main` ends.  `usage` and `fatal` are the early returns of main.go
87-127 with the message printed; `panicked` is the run-time panic of the scan loop;
`finished` is a run that reaches the report, with: whether the `ReadDir` error line
was printed (main.go 165-167), the report printed (main.go 196-208), the content
written to `missing.txt` if any, and whether creating that file failed. -/
inductive Outcome where
  | usage (message : String)
  | fatal (message : String)
  | panicked
  | finished (readDirError : Bool) (report : Report) (dump : Option String)
      (createError : Bool)
deriving DecidableEq

/-- The function `main` (main.go 79-222). -/
def main (sortSlice : List Metadata → List Metadata) (r : Run) : Outcome :=
  if r.args < 1 then
    Outcome.usage "Please provide a json file dumped from yt-dlp as the first argument"
  else if r.args < 2 then
    Outcome.usage ("Please provide a directory with folder names formatted like this "
      ++ "\"[YYYYMMDD] [XXXXXXXXXXXX] ...\" where X is the video ID")
  else if r.openDirFails then
    Outcome.fatal "Error while opening provided directory"
  else if r.openFileFails then
    Outcome.fatal "Error while opening provided json file"
  else if r.statFails then
    Outcome.fatal "Error while stating the provided directory"
  else if !r.statIsDir then
    Outcome.fatal "Second argument is not a directory"
  else
    let allMetadata := sortSlice (loadLines r.cat r.lines)
    match scanEntries r.entries with
    | none => Outcome.panicked
    | some existingIds =>
      let rep := report allMetadata existingIds
      if r.dumpToFile then
        if r.createFails then Outcome.finished r.readDirFails rep none true
        else Outcome.finished r.readDirFails rep (some (dumpText rep.missing)) false
      else Outcome.finished r.readDirFails rep none false

/-! ## Basic facts about the membership helpers and the two loops -/

theorem containsStr_iff (s : List String) (id : String) :
    containsStr s id = true ↔ id ∈ s := by
  induction s with
  | nil => simp [containsStr]
  | cons x s ih =>
    simp only [containsStr, List.mem_cons]
    by_cases h : x = id
    · simp [h]
    · have h2 : ¬ id = x := fun e => h e.symm
      simp [h, h2, ih]

theorem containsMeta_iff (s : List Metadata) (id : String) :
    containsMeta s id = true ↔ ∃ m ∈ s, m.Id = id := by
  induction s with
  | nil => simp [containsMeta]
  | cons x s ih =>
    simp only [containsMeta, List.mem_cons]
    by_cases h : x.Id = id
    · simp [h]
    · simp [h, ih]

theorem foldl_missingStep (existingIds : List String) (l acc : List Metadata) :
    l.foldl (missingStep existingIds) acc
      = acc ++ l.filter (fun m => !containsStr existingIds m.Id) := by
  induction l generalizing acc with
  | nil => simp
  | cons m l ih =>
    simp only [List.foldl_cons, ih, missingStep, List.filter_cons]
    by_cases h : containsStr existingIds m.Id = true
    · simp [h]
    · simp [h]

theorem foldl_extraStep (allMetadata : List Metadata) (l acc : List String) :
    l.foldl (extraStep allMetadata) acc
      = acc ++ l.filter (fun id => !containsMeta allMetadata id) := by
  induction l generalizing acc with
  | nil => simp
  | cons m l ih =>
    simp only [List.foldl_cons, ih, extraStep, List.filter_cons]
    by_cases h : containsMeta allMetadata m = true
    · simp [h]
    · simp [h]

theorem computeMissing_eq_filter (allMetadata : List Metadata) (existingIds : List String) :
    computeMissing allMetadata existingIds
      = allMetadata.filter (fun m => !containsStr existingIds m.Id) := by
  simp [computeMissing, foldl_missingStep]

theorem computeExtra_eq_filter (allMetadata : List Metadata) (existingIds : List String) :
    computeExtra allMetadata existingIds
      = existingIds.filter (fun id => !containsMeta allMetadata id) := by
  simp [computeExtra, foldl_extraStep]

/-! ## String order and the sorting contract -/

theorem lessChars_asymm (x y : List Char) :
    lessChars x y = true → lessChars y x = false := by
  induction x generalizing y with
  | nil => cases y <;> simp [lessChars]
  | cons a as ih =>
    cases y with
    | nil => simp [lessChars]
    | cons b bs =>
      simp only [lessChars]
      by_cases h1 : a.toNat < b.toNat
      · have h2 : ¬ b.toNat < a.toNat := by omega
        simp [h1, h2]
      · by_cases h2 : b.toNat < a.toNat
        · simp [h1, h2]
        · simpa [h1, h2] using ih bs

theorem lessChars_negtrans (x y z : List Char) :
    lessChars x y = false → lessChars y z = false → lessChars x z = false := by
  induction x generalizing y z with
  | nil =>
    cases y with
    | nil => intro _ h; exact h
    | cons b bs => simp [lessChars]
  | cons a as ih =>
    cases y with
    | nil =>
      cases z with
      | nil => simp [lessChars]
      | cons c cs => simp [lessChars]
    | cons b bs =>
      cases z with
      | nil => simp [lessChars]
      | cons c cs =>
        simp only [lessChars]
        by_cases h1 : a.toNat < b.toNat
        · simp [h1]
        · by_cases h2 : b.toNat < a.toNat
          · by_cases h3 : b.toNat < c.toNat
            · simp [h1, h2, h3]
            · by_cases h4 : c.toNat < b.toNat
              · have h5 : ¬ a.toNat < c.toNat := by omega
                have h6 : c.toNat < a.toNat := by omega
                simp [h1, h2, h3, h4, h5, h6]
              · have h5 : ¬ a.toNat < c.toNat := by omega
                have h6 : c.toNat < a.toNat := by omega
                simp [h1, h2, h3, h4, h5, h6]
          · by_cases h3 : b.toNat < c.toNat
            · simp [h1, h2, h3]
            · by_cases h4 : c.toNat < b.toNat
              · have h5 : ¬ a.toNat < c.toNat := by omega
                have h6 : c.toNat < a.toNat := by omega
                simp [h1, h2, h3, h4, h5, h6]
              · have h5 : ¬ a.toNat < c.toNat := by omega
                have h6 : ¬ c.toNat < a.toNat := by omega
                simpa [h1, h2, h3, h4, h5, h6] using ih bs cs

theorem char_lt_iff_toNat (a b : Char) : a < b ↔ a.toNat < b.toNat := Iff.rfl

theorem char_eq_of_toNat (a b : Char) (h : a.toNat = b.toNat) : a = b := by
  apply Char.ext
  apply UInt32.ext
  exact h

/-- The comparison `lessChars` is the lexicographic order of character lists. -/
theorem lessChars_iff_lt (x y : List Char) : lessChars x y = true ↔ x < y := by
  induction x generalizing y with
  | nil =>
    cases y with
    | nil => simp [lessChars]
    | cons b bs => simp only [lessChars, true_iff]; exact List.Lex.nil
  | cons a as ih =>
    cases y with
    | nil => simp only [lessChars, Bool.false_eq_true, false_iff]; intro h; cases h
    | cons b bs =>
      simp only [lessChars]
      by_cases h1 : a.toNat < b.toNat
      · simp only [h1, if_true, true_iff]
        exact List.Lex.rel ((char_lt_iff_toNat a b).2 h1)
      · by_cases h2 : b.toNat < a.toNat
        · simp only [h1, h2, if_true, if_false, Bool.false_eq_true, false_iff]
          intro h
          cases h with
          | rel h3 => exact h1 ((char_lt_iff_toNat a b).1 h3)
          | cons h3 => omega
        · simp only [h1, h2, if_false]
          have e : a = b := char_eq_of_toNat a b (by omega)
          subst e
          rw [ih bs]
          constructor
          · intro h
            exact List.Lex.cons h
          · intro h
            cases h with
            | rel h3 => exact absurd ((char_lt_iff_toNat a a).1 h3) h1
            | cons h3 => exact h3

theorem lessChars_iff_string_lt (s t : String) :
    lessChars s.data t.data = true ↔ s < t := by
  rw [lessChars_iff_lt, String.lt_iff_toList_lt]
  rfl

/-- The relation `dateLE` is `≤` of the two dates in the lexicographic string order. -/
theorem dateLE_iff (a b : Metadata) : dateLE a b ↔ a.Date ≤ b.Date := by
  unfold dateLE dateLess
  rw [← not_lt, ← lessChars_iff_string_lt]
  simp

theorem dateLE_total (a b : Metadata) : dateLE a b ∨ dateLE b a := by
  unfold dateLE dateLess
  cases h : lessChars b.Date.data a.Date.data with
  | false => exact Or.inl rfl
  | true => exact Or.inr (lessChars_asymm _ _ h)

theorem dateLE_trans (a b c : Metadata) : dateLE a b → dateLE b c → dateLE a c := by
  unfold dateLE dateLess
  intro h1 h2
  exact lessChars_negtrans _ _ _ h2 h1

instance dateLE_isTotal : IsTotal Metadata dateLE := ⟨dateLE_total⟩

instance dateLE_isTrans : IsTrans Metadata dateLE := ⟨dateLE_trans⟩

theorem stableSortSlice_contract : SortSliceContract stableSortSlice := by
  intro l
  exact ⟨List.perm_insertionSort dateLE l, List.sorted_insertionSort dateLE l⟩

theorem reversingSortSlice_contract : SortSliceContract reversingSortSlice := by
  intro l
  exact ⟨(List.perm_insertionSort dateLE l.reverse).trans (List.reverse_perm l),
    List.sorted_insertionSort dateLE l.reverse⟩

/-! ## Facts about the loader loop -/

theorem foldl_loadStep (cat : Category) (l acc : List Metadata) :
    l.foldl (loadStep cat) acc = acc ++ l.filter (retained cat) := by
  induction l generalizing acc with
  | nil => simp
  | cons m l ih =>
    simp only [List.foldl_cons, ih, loadStep, List.filter_cons]
    by_cases h : retained cat m = true
    · simp [h]
    · simp [h]

theorem loadRecords_eq_filter (cat : Category) (records : List Metadata) :
    loadRecords cat records = records.filter (retained cat) := by
  simp [loadRecords, foldl_loadStep]

theorem HasSuffix_iff (s suffix : String) :
    HasSuffix s suffix = true ↔ ∃ p : String, s = p ++ suffix := by
  unfold HasSuffix
  constructor
  · intro h
    simp only [Bool.and_eq_true, decide_eq_true_eq, beq_iff_eq] at h
    refine ⟨String.mk (s.data.take (s.data.length - suffix.data.length)), ?_⟩
    apply String.ext
    rw [String.data_append]
    conv_lhs => rw [← List.take_append_drop (s.data.length - suffix.data.length) s.data]
    rw [h.2]
  · rintro ⟨p, rfl⟩
    simp [String.data_append]

/-! ## Facts about `strings.Fields` and `strings.Trim` -/

theorem fieldsLoop_nonspace_append (w s cur : List Char)
    (hw : ∀ c ∈ w, isSpace c = false) :
    fieldsLoop (w ++ s) cur = fieldsLoop s (cur ++ w) := by
  induction w generalizing cur with
  | nil => simp
  | cons c w ih =>
    have hc : isSpace c = false := hw c (List.mem_cons_self _ _)
    have hw2 : ∀ x ∈ w, isSpace x = false := fun x hx => hw x (List.mem_cons_of_mem _ hx)
    have step : fieldsLoop (c :: (w ++ s)) cur = fieldsLoop (w ++ s) (cur ++ [c]) := by
      simp [fieldsLoop, hc]
    rw [List.cons_append, step, ih (cur ++ [c]) hw2]
    simp

theorem fieldsLoop_space_close (c : Char) (s cur : List Char)
    (hc : isSpace c = true) (hcur : cur ≠ []) :
    fieldsLoop (c :: s) cur = String.mk cur :: fieldsLoop s [] := by
  cases cur with
  | nil => exact absurd rfl hcur
  | cons x xs => simp [fieldsLoop, hc]

theorem rdropWhile_append_rtakeWhile (p : Char → Bool) (l : List Char) :
    List.rdropWhile p l ++ List.rtakeWhile p l = l := by
  simp only [List.rdropWhile, List.rtakeWhile, ← List.reverse_append,
    List.takeWhile_append_dropWhile, List.reverse_reverse]

theorem trim_decomposition (p : Char → Bool) (l : List Char) :
    ∃ a b : List Char,
      l = a ++ List.rdropWhile p (List.dropWhile p l) ++ b
      ∧ (∀ x ∈ a, p x = true) ∧ (∀ x ∈ b, p x = true)
      ∧ (∀ x, (List.rdropWhile p (List.dropWhile p l)).head? = some x → p x = false)
      ∧ (∀ x, (List.rdropWhile p (List.dropWhile p l)).getLast? = some x → p x = false) := by
  refine ⟨List.takeWhile p l, List.rtakeWhile p (List.dropWhile p l), ?_, ?_, ?_, ?_, ?_⟩
  · rw [List.append_assoc, rdropWhile_append_rtakeWhile, List.takeWhile_append_dropWhile]
  · intro x hx; exact List.mem_takeWhile_imp hx
  · intro x hx; exact List.mem_rtakeWhile_imp hx
  · intro x hx
    have hne : List.rdropWhile p (List.dropWhile p l) ≠ [] := by
      intro e; rw [e] at hx; simp at hx
    have hpre : List.rdropWhile p (List.dropWhile p l) <+: List.dropWhile p l :=
      List.rdropWhile_prefix p _
    obtain ⟨t, ht⟩ := hpre
    have hd := List.head?_dropWhile_not p l
    rw [← ht] at hd
    cases hr : List.rdropWhile p (List.dropWhile p l) with
    | nil => exact absurd hr hne
    | cons y ys =>
      rw [hr] at hx hd
      simp only [List.head?_cons, Option.some.injEq] at hx
      simp only [List.cons_append, List.head?_cons] at hd
      rw [← hx]; exact hd
  · intro x hx
    have hne : List.rdropWhile p (List.dropWhile p l) ≠ [] := by
      intro e; rw [e] at hx; simp at hx
    have hl := List.rdropWhile_last_not p (List.dropWhile p l) hne
    rw [List.getLast?_eq_getLast _ hne] at hx
    simp only [Option.some.injEq] at hx
    rw [← hx]
    simpa using hl

theorem mem_cutset_lbracket (c : Char) : "[".data.contains c = true ↔ c = '[' := by
  show ['['].contains c = true ↔ c = '['
  simp

theorem mem_cutset_rbracket (c : Char) : "]".data.contains c = true ↔ c = ']' := by
  show [']'].contains c = true ↔ c = ']'
  simp

theorem fields_conventional (first id rest : String)
    (hf1 : first.data ≠ []) (hf2 : ∀ c ∈ first.data, isSpace c = false)
    (hi2 : ∀ c ∈ id.data, isSpace c = false) :
    Fields (first ++ " [" ++ id ++ "] " ++ rest)
      = first :: String.mk ('[' :: id.data ++ [']']) :: Fields rest := by
  have hd : (first ++ " [" ++ id ++ "] " ++ rest).data
      = first.data ++ (' ' :: (('[' :: id.data ++ [']']) ++ (' ' :: rest.data))) := by
    have e1 : " [".data = [' ', '['] := rfl
    have e2 : "] ".data = [']', ' '] := rfl
    simp [String.data_append, e1, e2]
  have hW : ∀ c ∈ '[' :: id.data ++ [']'], isSpace c = false := by
    intro c hc
    simp only [List.cons_append, List.mem_cons, List.mem_append, List.mem_singleton,
      List.not_mem_nil, or_false] at hc
    rcases hc with h | h | h
    · rw [h]; decide
    · exact hi2 c h
    · rw [h]; decide
  have hsp : isSpace ' ' = true := by decide
  unfold Fields
  rw [hd, fieldsLoop_nonspace_append _ _ _ hf2, List.nil_append,
    fieldsLoop_space_close _ _ _ hsp hf1, fieldsLoop_nonspace_append _ _ _ hW,
    List.nil_append, fieldsLoop_space_close _ _ _ hsp (by simp)]

theorem trim_brackets_conventional (id : List Char)
    (h1 : id.head? ≠ some '[' ∧ id.head? ≠ some ']')
    (h2 : id.getLast? ≠ some ']') :
    Trim (Trim (String.mk ('[' :: id ++ [']'])) "[") "]" = String.mk id := by
  have p1 : ∀ c, (fun c => "[".data.contains c) c = (c == '[') := by
    intro c
    apply Bool.eq_iff_iff.2
    show "[".data.contains c = true ↔ (c == '[') = true
    rw [mem_cutset_lbracket]; simp
  have p2 : ∀ c, (fun c => "]".data.contains c) c = (c == ']') := by
    intro c
    apply Bool.eq_iff_iff.2
    show "]".data.contains c = true ↔ (c == ']') = true
    rw [mem_cutset_rbracket]; simp
  have f1 : (fun c => "[".data.contains c) = (fun c => c == '[') := funext p1
  have f2 : (fun c => "]".data.contains c) = (fun c => c == ']') := funext p2
  have inner : Trim (String.mk ('[' :: id ++ [']'])) "[" = String.mk (id ++ [']']) := by
    unfold Trim
    rw [f1]
    congr 1
    have d1 : List.dropWhile (fun c => c == '[') ('[' :: id ++ [']']) = id ++ [']'] := by
      rw [List.cons_append, List.dropWhile_cons_of_pos (by simp)]
      cases id with
      | nil => simp
      | cons y ys =>
        have hy : y ≠ '[' := fun e => h1.1 (by simp [e])
        rw [List.cons_append, List.dropWhile_cons_of_neg (by simpa using hy)]
    show List.rdropWhile (fun c => c == '[') (List.dropWhile (fun c => c == '[')
      ('[' :: id ++ [']'])) = id ++ [']']
    rw [d1, List.rdropWhile_concat_neg _ _ _ (by decide)]
  rw [inner]
  unfold Trim
  rw [f2]
  congr 1
  show List.rdropWhile (fun c => c == ']') (List.dropWhile (fun c => c == ']')
    (id ++ [']'])) = id
  have d2 : List.dropWhile (fun c => c == ']') (id ++ [']'])
      = if id = [] then [] else id ++ [']'] := by
    cases id with
    | nil => simp
    | cons y ys =>
      have hy : y ≠ ']' := fun e => h1.2 (by simp [e])
      rw [List.cons_append, List.dropWhile_cons_of_neg (by simpa using hy)]
      simp
  rw [d2]
  by_cases hid : id = []
  · simp [hid]
  · rw [if_neg hid, List.rdropWhile_concat_pos _ _ _ (by simp), List.rdropWhile_eq_self_iff]
    intro hl
    have : id.getLast? = some (id.getLast hl) := List.getLast?_eq_getLast _ hl
    intro hp
    have e : id.getLast hl = ']' := by simpa using hp
    exact h2 (by rw [this, e])

/-! ## Facts about the scan loop and the dump file -/

theorem foldlM_scanStep_eq_some (entries : List DirEntry) (acc r : List String) :
    entries.foldlM scanStep acc = some r
      ↔ ∃ ids, r = acc ++ ids
          ∧ List.Forall₂ (fun e id => extractId e.Name = some id)
              (entries.filter (fun e => e.IsDir)) ids := by
  induction entries generalizing acc with
  | nil =>
    simp only [List.foldlM_nil, List.filter_nil, List.forall₂_nil_left_iff]
    constructor
    · intro h
      have e : acc = r := Option.some.inj h
      exact ⟨[], by simp [e], rfl⟩
    · rintro ⟨ids, h1, h2⟩
      subst h2
      simp [h1]
  | cons e entries ih =>
    rw [List.foldlM_cons]
    cases hd : e.IsDir with
    | false =>
      have hs : scanStep acc e = some acc := by simp [scanStep, hd]
      rw [hs, List.filter_cons_of_neg (by simp [hd])]
      exact ih acc
    | true =>
      rw [List.filter_cons_of_pos (by simp [hd])]
      cases hx : extractId e.Name with
      | none =>
        have hs : scanStep acc e = none := by simp [scanStep, hd, hx]
        rw [hs]
        constructor
        · intro h; exact absurd h (by simp)
        · rintro ⟨ids, _, h2⟩
          cases h2 with
          | cons h3 _ => rw [hx] at h3; exact absurd h3 (by simp)
      | some id =>
        have hs : scanStep acc e = some (acc ++ [id]) := by simp [scanStep, hd, hx]
        rw [hs]
        show List.foldlM scanStep (acc ++ [id]) entries = some r ↔ _
        rw [ih (acc ++ [id])]
        constructor
        · rintro ⟨ids, h1, h2⟩
          exact ⟨id :: ids, by simp [h1], List.Forall₂.cons hx h2⟩
        · rintro ⟨ids, h1, h2⟩
          cases h2 with
          | cons h3 h4 =>
            rw [hx] at h3
            have e3 := Option.some.inj h3
            subst e3
            exact ⟨_, by simp [h1], h4⟩

theorem splitLinesLoop_line (w rest cur : List Char) (hw : ∀ c ∈ w, c ≠ '\n') :
    splitLinesLoop (w ++ '\n' :: rest) cur
      = String.mk (cur ++ w) :: splitLinesLoop rest [] := by
  induction w generalizing cur with
  | nil => simp [splitLinesLoop]
  | cons c w ih =>
    have hc : c ≠ '\n' := hw c (List.mem_cons_self _ _)
    have hw2 : ∀ x ∈ w, x ≠ '\n' := fun x hx => hw x (List.mem_cons_of_mem _ hx)
    have step : splitLinesLoop (c :: (w ++ '\n' :: rest)) cur
        = splitLinesLoop (w ++ '\n' :: rest) (cur ++ [c]) := by
      simp [splitLinesLoop, hc]
    rw [List.cons_append, step, ih (cur ++ [c]) hw2]
    simp

theorem foldl_dumpStep_data (l : List Metadata) (content : String) :
    (l.foldl dumpStep content).data
      = content.data ++ (l.map (fun m => m.Id.data ++ ['\n'])).flatten := by
  induction l generalizing content with
  | nil => simp
  | cons m l ih =>
    have e : "\n".data = ['\n'] := rfl
    rw [List.foldl_cons, ih]
    simp [dumpStep, String.data_append, e]

theorem splitLinesLoop_dump (l : List Metadata)
    (h : ∀ m ∈ l, ∀ c ∈ m.Id.data, c ≠ '\n') :
    splitLinesLoop (l.map (fun m => m.Id.data ++ ['\n'])).flatten []
      = l.map (fun m => m.Id) := by
  induction l with
  | nil => simp [splitLinesLoop]
  | cons m l ih =>
    have h1 : ∀ c ∈ m.Id.data, c ≠ '\n' := h m (List.mem_cons_self _ _)
    have h2 : ∀ x ∈ l, ∀ c ∈ x.Id.data, c ≠ '\n' :=
      fun x hx => h x (List.mem_cons_of_mem _ hx)
    simp only [List.map_cons, List.flatten_cons, List.append_assoc, List.singleton_append]
    rw [splitLinesLoop_line _ _ _ h1, ih h2]
    simp

theorem extractId_isSome_of_two_fields (name : String)
    (h : 2 ≤ (Fields name).length) : ∃ id, extractId name = some id := by
  unfold extractId
  cases hF : Fields name with
  | nil => rw [hF] at h; simp at h
  | cons f0 t =>
    cases t with
    | nil => rw [hF] at h; simp at h
    | cons f t2 => exact ⟨_, rfl⟩

theorem forall₂_extractId_exists (dirs : List DirEntry)
    (h : ∀ e ∈ dirs, 2 ≤ (Fields e.Name).length) :
    ∃ ids, List.Forall₂ (fun e id => extractId e.Name = some id) dirs ids := by
  induction dirs with
  | nil => exact ⟨[], List.Forall₂.nil⟩
  | cons e dirs ih =>
    obtain ⟨id, hid⟩ := extractId_isSome_of_two_fields e.Name (h e (List.mem_cons_self _ _))
    obtain ⟨ids, hids⟩ := ih (fun x hx => h x (List.mem_cons_of_mem _ hx))
    exact ⟨id :: ids, List.Forall₂.cons hid hids⟩

/-! ## Membership and counting facts for `missing` and `extra` -/

theorem mem_computeMissing (catalog : List Metadata) (scanned : List String) (m : Metadata) :
    m ∈ computeMissing catalog scanned ↔ m ∈ catalog ∧ m.Id ∉ scanned := by
  rw [computeMissing_eq_filter, List.mem_filter]
  have := containsStr_iff scanned m.Id
  cases hc : containsStr scanned m.Id <;> simp_all

theorem mem_computeExtra (catalog : List Metadata) (scanned : List String) (x : String) :
    x ∈ computeExtra catalog scanned ↔ x ∈ scanned ∧ ¬ ∃ m ∈ catalog, m.Id = x := by
  rw [computeExtra_eq_filter, List.mem_filter]
  have := containsMeta_iff catalog x
  cases hc : containsMeta catalog x <;> simp_all

theorem length_computeMissing_add (catalog : List Metadata) (scanned : List String) :
    (computeMissing catalog scanned).length
      + catalog.countP (fun m => decide (m.Id ∈ scanned)) = catalog.length := by
  have e : (fun m : Metadata => decide (m.Id ∈ scanned))
      = (fun m => containsStr scanned m.Id) := by
    funext m
    have := containsStr_iff scanned m.Id
    cases hc : containsStr scanned m.Id <;> simp_all
  rw [computeMissing_eq_filter, e, ← List.countP_eq_length_filter]
  have := List.length_eq_countP_add_countP (fun m => containsStr scanned m.Id) catalog
  have e2 : List.countP (fun m => !containsStr scanned m.Id) catalog
      = List.countP (fun a => ¬ containsStr scanned a.Id = true) catalog := by
    congr 1; funext m; cases containsStr scanned m.Id <;> simp
  omega

theorem length_computeExtra_add (catalog : List Metadata) (scanned : List String) :
    (computeExtra catalog scanned).length
      + scanned.countP (fun x => decide (x ∈ catalog.map (fun m => m.Id))) = scanned.length := by
  have e : (fun x : String => decide (x ∈ catalog.map (fun m => m.Id)))
      = (fun x => containsMeta catalog x) := by
    funext x
    have := containsMeta_iff catalog x
    cases hc : containsMeta catalog x
    · have hn : ¬ x ∈ catalog.map (fun m => m.Id) := by
        intro hh
        rw [List.mem_map] at hh
        rw [← this] at hh
        simp [hc] at hh
      exact decide_eq_false hn
    · exact decide_eq_true (List.mem_map.2 (this.1 hc))
  rw [computeExtra_eq_filter, e, ← List.countP_eq_length_filter]
  have := List.length_eq_countP_add_countP (fun x => containsMeta catalog x) scanned
  have e2 : List.countP (fun x => !containsMeta catalog x) scanned
      = List.countP (fun a => ¬ containsMeta catalog a = true) scanned := by
    congr 1; funext m; cases containsMeta catalog m <;> simp
  omega

theorem matched_counts_eq_of_nodup (catalog : List Metadata) (scanned : List String)
    (hc : (catalog.map (fun m => m.Id)).Nodup) (hs : scanned.Nodup) :
    scanned.countP (fun x => decide (x ∈ catalog.map (fun m => m.Id)))
      = catalog.countP (fun m => decide (m.Id ∈ scanned)) := by
  have hperm : List.Perm
      (scanned.filter (fun x => decide (x ∈ catalog.map (fun m => m.Id))))
      ((catalog.map (fun m => m.Id)).filter (fun x => decide (x ∈ scanned))) := by
    rw [List.perm_ext_iff_of_nodup (hs.filter _) (hc.filter _)]
    intro a
    simp only [List.mem_filter, decide_eq_true_eq]
    exact and_comm
  have hl := hperm.length_eq
  rw [← List.countP_eq_length_filter, ← List.countP_eq_length_filter, List.countP_map] at hl
  rw [hl]
  rfl

/-! ## Claims about the reconciliation loops -/

/-- C1: `missing` is exactly the catalog filtered to the records whose id equals no
scanned identifier, hence a subsequence of the catalog in catalog order; with no
scanned identifier it is the whole catalog, and a one-record catalog whose id is
scanned gives an empty `missing`. -/
theorem C1_missing_is_unscanned_subsequence (catalog : List Metadata) (scanned : List String) :
    computeMissing catalog scanned = catalog.filter (fun m => decide (∀ x ∈ scanned, x ≠ m.Id))
    ∧ List.Sublist (computeMissing catalog scanned) catalog
    ∧ (∀ m, m ∈ computeMissing catalog scanned ↔ m ∈ catalog ∧ ∀ x ∈ scanned, x ≠ m.Id)
    ∧ computeMissing catalog [] = catalog
    ∧ (∀ (m : Metadata) (pre post : List String),
        computeMissing [m] (pre ++ m.Id :: post) = []) := by
  have key : (fun m : Metadata => !containsStr scanned m.Id)
      = (fun m => decide (∀ x ∈ scanned, x ≠ m.Id)) := by
    funext m
    by_cases h : m.Id ∈ scanned
    · have h1 : containsStr scanned m.Id = true := (containsStr_iff _ _).2 h
      have h2 : ¬ ∀ x ∈ scanned, x ≠ m.Id := fun hh => hh _ h rfl
      simp [h1, h2]
    · have h1 : containsStr scanned m.Id = false := by
        cases hc : containsStr scanned m.Id with
        | false => rfl
        | true => exact absurd ((containsStr_iff _ _).1 hc) h
      have h2 : ∀ x ∈ scanned, x ≠ m.Id := fun x hx e => h (e ▸ hx)
      rw [h1, decide_eq_true h2]; rfl
  refine ⟨?_, ?_, ?_, ?_, ?_⟩
  · rw [computeMissing_eq_filter, key]
  · rw [computeMissing_eq_filter]; exact List.filter_sublist _
  · intro m
    rw [computeMissing_eq_filter, key]
    simp [List.mem_filter]
  · rw [computeMissing_eq_filter]; simp [containsStr]
  · intro m pre post
    rw [computeMissing_eq_filter]
    have : containsStr (pre ++ m.Id :: post) m.Id = true :=
      (containsStr_iff _ _).2 (by simp)
    simp [this]

/-- C2: `extra` is exactly the scanned list filtered to the identifiers that are the id
of no catalog record, in scan order and with multiplicity (an unmatched identifier
occurs in `extra` as often as it was scanned); with an empty catalog it is the whole
scanned list. -/
theorem C2_extra_is_unmatched_subsequence (catalog : List Metadata) (scanned : List String) :
    computeExtra catalog scanned = scanned.filter (fun id => decide (∀ m ∈ catalog, m.Id ≠ id))
    ∧ List.Sublist (computeExtra catalog scanned) scanned
    ∧ (∀ id, (∀ m ∈ catalog, m.Id ≠ id) →
        (computeExtra catalog scanned).count id = scanned.count id)
    ∧ (∀ id, (∃ m ∈ catalog, m.Id = id) → (computeExtra catalog scanned).count id = 0)
    ∧ computeExtra [] scanned = scanned := by
  have key : (fun id : String => !containsMeta catalog id)
      = (fun id => decide (∀ m ∈ catalog, m.Id ≠ id)) := by
    funext id
    by_cases h : ∃ m ∈ catalog, m.Id = id
    · have h1 : containsMeta catalog id = true := (containsMeta_iff _ _).2 h
      have h2 : ¬ ∀ m ∈ catalog, m.Id ≠ id := by
        obtain ⟨m, hm, e⟩ := h
        exact fun hh => hh m hm e
      rw [h1, decide_eq_false h2]; rfl
    · have h1 : containsMeta catalog id = false := by
        cases hc : containsMeta catalog id with
        | false => rfl
        | true => exact absurd ((containsMeta_iff _ _).1 hc) h
      have h2 : ∀ m ∈ catalog, m.Id ≠ id := fun m hm e => h ⟨m, hm, e⟩
      rw [h1, decide_eq_true h2]; rfl
  refine ⟨?_, ?_, ?_, ?_, ?_⟩
  · rw [computeExtra_eq_filter, key]
  · rw [computeExtra_eq_filter]; exact List.filter_sublist _
  · intro id hid
    rw [computeExtra_eq_filter, key, List.count_filter]
    simp only [decide_eq_true_eq]
    exact hid
  · intro id hid
    rw [computeExtra_eq_filter, key, List.count_eq_zero]
    intro hmem
    have := (List.mem_filter.1 hmem).2
    simp only [decide_eq_true_eq] at this
    obtain ⟨m, hm, e⟩ := hid
    exact this m hm e
  · rw [computeExtra_eq_filter]; simp [containsMeta]

/-! ## Claims about the loader -/

/-- C3: for each of the five categories the loader loop keeps a record (appends it to
the accumulated sequence) exactly when the category is `all` or the record's
playlistTitle ends with the suffix of the category: shorts "Shorts", video "Videos",
livestream "Live", membership "Membership"; so a record is in the loaded sequence
exactly when it is in the input and passes that test. -/
theorem C3_category_filter (cat : Category) (md : Metadata)
    (hcat : cat ∈ [All, Shorts, Video, Livestream, Membership]) :
    (retained cat md = true ↔
      (cat = All
        ∨ (cat = Shorts ∧ ∃ p : String, md.PlaylistTitle = p ++ "Shorts")
        ∨ (cat = Video ∧ ∃ p : String, md.PlaylistTitle = p ++ "Videos")
        ∨ (cat = Livestream ∧ ∃ p : String, md.PlaylistTitle = p ++ "Live")
        ∨ (cat = Membership ∧ ∃ p : String, md.PlaylistTitle = p ++ "Membership")))
    ∧ (∀ acc : List Metadata,
        loadStep cat acc md = (if retained cat md then acc ++ [md] else acc))
    ∧ (∀ records : List Metadata,
        md ∈ loadRecords cat records ↔ md ∈ records ∧ retained cat md = true) := by
  refine ⟨?_, fun acc => rfl, ?_⟩
  · simp only [List.mem_cons, List.mem_singleton, List.not_mem_nil, or_false] at hcat
    rcases hcat with h | h | h | h | h <;> subst h
    · simp [retained]
    · have e : retained Shorts md = HasSuffix md.PlaylistTitle "Shorts" := by
        simp [retained, All, Shorts]
      rw [e, HasSuffix_iff]
      simp [All, Shorts, Video, Livestream, Membership]
    · have e : retained Video md = HasSuffix md.PlaylistTitle "Videos" := by
        simp [retained, All, Shorts, Video]
      rw [e, HasSuffix_iff]
      simp [All, Shorts, Video, Livestream, Membership]
    · have e : retained Livestream md = HasSuffix md.PlaylistTitle "Live" := by
        simp [retained, All, Shorts, Video, Livestream]
      rw [e, HasSuffix_iff]
      simp [All, Shorts, Video, Livestream, Membership]
    · have e : retained Membership md = HasSuffix md.PlaylistTitle "Membership" := by
        simp [retained, All, Shorts, Video, Livestream, Membership]
      rw [e, HasSuffix_iff]
      simp [All, Shorts, Video, Livestream, Membership]
  · intro records
    rw [loadRecords_eq_filter, List.mem_filter]

/-- Witness of C3 at the category `shorts` and a record of a "Shorts" playlist. -/
theorem C3_category_filter_witness :
    (retained Shorts ⟨"abc123", "T", "20200101", "Channel - Shorts"⟩ = true ↔
      (Shorts = All
        ∨ (Shorts = Shorts ∧ ∃ p : String, "Channel - Shorts" = p ++ "Shorts")
        ∨ (Shorts = Video ∧ ∃ p : String, "Channel - Shorts" = p ++ "Videos")
        ∨ (Shorts = Livestream ∧ ∃ p : String, "Channel - Shorts" = p ++ "Live")
        ∨ (Shorts = Membership ∧ ∃ p : String, "Channel - Shorts" = p ++ "Membership")))
    ∧ retained Shorts ⟨"abc123", "T", "20200101", "Channel - Shorts"⟩ = true :=
  ⟨(C3_category_filter Shorts ⟨"abc123", "T", "20200101", "Channel - Shorts"⟩
      (by simp)).1, by decide⟩

/-- C4: whatever the order of the input records, `missing` is non-decreasing by
uploadDate: of two consecutive records of `missing` (indeed of any two, the first
standing before the second) the second's date is never strictly less than the
first's. -/
theorem C4_missing_sorted_by_date (sortSlice : List Metadata → List Metadata)
    (hsort : SortSliceContract sortSlice) (cat : Category) (records : List Metadata)
    (scanned : List String) :
    List.Chain' (fun a b => a.Date ≤ b.Date)
      (computeMissing (loader sortSlice cat records) scanned)
    ∧ List.Chain' (fun a b => dateLess b a = false)
      (computeMissing (loader sortSlice cat records) scanned)
    ∧ List.Pairwise (fun a b => a.Date ≤ b.Date)
      (computeMissing (loader sortSlice cat records) scanned) := by
  have hp : List.Pairwise dateLE (computeMissing (loader sortSlice cat records) scanned) := by
    rw [computeMissing_eq_filter]
    exact List.Pairwise.filter _ (hsort _).2
  have hq : List.Pairwise (fun a b => a.Date ≤ b.Date)
      (computeMissing (loader sortSlice cat records) scanned) :=
    hp.imp (fun {a b} h => (dateLE_iff a b).1 h)
  exact ⟨List.Pairwise.chain' hq, List.Pairwise.chain' hp, hq⟩

/-- Witness of C4: three records given out of date order, one of them on disk. -/
theorem C4_missing_sorted_by_date_witness :
    SortSliceContract stableSortSlice
    ∧ List.Chain' (fun a b => a.Date ≤ b.Date)
        (computeMissing (loader stableSortSlice All
          [⟨"c", "", "20200103", ""⟩, ⟨"a", "", "20200101", ""⟩, ⟨"b", "", "20200102", ""⟩])
          ["b"])
    ∧ computeMissing (loader stableSortSlice All
          [⟨"c", "", "20200103", ""⟩, ⟨"a", "", "20200101", ""⟩, ⟨"b", "", "20200102", ""⟩])
          ["b"]
        = [⟨"a", "", "20200101", ""⟩, ⟨"c", "", "20200103", ""⟩] :=
  ⟨stableSortSlice_contract,
    (C4_missing_sorted_by_date stableSortSlice stableSortSlice_contract All _ _).1,
    by decide⟩

/-- C5: partition completeness.  Every scanned identifier is matched by a catalog
record or is in `extra`, never both; every catalog record is matched by a scanned
identifier or is in `missing`, never both; so `missing` and the matched records
add up to the catalog, and `extra` and the matched identifiers to the scanned list. -/
theorem C5_partition_completeness (catalog : List Metadata) (scanned : List String) :
    (∀ x ∈ scanned,
        ((∃ m ∈ catalog, m.Id = x) ∨ x ∈ computeExtra catalog scanned)
        ∧ ¬ ((∃ m ∈ catalog, m.Id = x) ∧ x ∈ computeExtra catalog scanned))
    ∧ (∀ m ∈ catalog,
        (m.Id ∈ scanned ∨ m ∈ computeMissing catalog scanned)
        ∧ ¬ (m.Id ∈ scanned ∧ m ∈ computeMissing catalog scanned))
    ∧ (computeMissing catalog scanned).length
        + catalog.countP (fun m => decide (m.Id ∈ scanned)) = catalog.length
    ∧ (computeExtra catalog scanned).length
        + scanned.countP (fun x => decide (∃ m ∈ catalog, m.Id = x)) = scanned.length := by
  have hM : ∀ m, m ∈ computeMissing catalog scanned ↔ m ∈ catalog ∧ m.Id ∉ scanned := by
    intro m
    rw [computeMissing_eq_filter, List.mem_filter]
    have := containsStr_iff scanned m.Id
    cases hc : containsStr scanned m.Id <;> simp_all
  have hE : ∀ x, x ∈ computeExtra catalog scanned
      ↔ x ∈ scanned ∧ ¬ ∃ m ∈ catalog, m.Id = x := by
    intro x
    rw [computeExtra_eq_filter, List.mem_filter]
    have := containsMeta_iff catalog x
    cases hc : containsMeta catalog x <;> simp_all
  refine ⟨?_, ?_, ?_, ?_⟩
  · intro x hx
    by_cases h : ∃ m ∈ catalog, m.Id = x
    · exact ⟨Or.inl h, fun hh => ((hE x).1 hh.2).2 h⟩
    · exact ⟨Or.inr ((hE x).2 ⟨hx, h⟩), fun hh => h hh.1⟩
  · intro m hm
    by_cases h : m.Id ∈ scanned
    · exact ⟨Or.inl h, fun hh => ((hM m).1 hh.2).2 h⟩
    · exact ⟨Or.inr ((hM m).2 ⟨hm, h⟩), fun hh => h hh.1⟩
  · have e : (fun m : Metadata => decide (m.Id ∈ scanned))
        = (fun m => containsStr scanned m.Id) := by
      funext m
      have := containsStr_iff scanned m.Id
      cases hc : containsStr scanned m.Id <;> simp_all
    rw [computeMissing_eq_filter, e, ← List.countP_eq_length_filter]
    have := List.length_eq_countP_add_countP (fun m => containsStr scanned m.Id) catalog
    have e2 : List.countP (fun m => !containsStr scanned m.Id) catalog
        = List.countP (fun a => ¬ containsStr scanned a.Id = true) catalog := by
      congr 1; funext m; cases containsStr scanned m.Id <;> simp
    omega
  · have e : (fun x : String => decide (∃ m ∈ catalog, m.Id = x))
        = (fun x => containsMeta catalog x) := by
      funext x
      have := containsMeta_iff catalog x
      cases hc : containsMeta catalog x
      · have hn : ¬ ∃ m ∈ catalog, m.Id = x := by
          intro hh; rw [← this] at hh; simp [hc] at hh
        exact decide_eq_false hn
      · exact decide_eq_true (this.1 hc)
    rw [computeExtra_eq_filter, e, ← List.countP_eq_length_filter]
    have := List.length_eq_countP_add_countP (fun x => containsMeta catalog x) scanned
    have e2 : List.countP (fun x => !containsMeta catalog x) scanned
        = List.countP (fun a => ¬ containsMeta catalog a = true) scanned := by
      congr 1; funext m; cases containsMeta catalog m <;> simp
    omega

/-- C6: the loader's output is a permutation of the input records that pass the
category filter: every record occurs in it as often as among the retained input
records (so records sharing an id are all kept), a record that fails the filter is
not in it, and its length, the number of retained records, is the total the
summary line shows whenever it shows one. -/
theorem C6_loader_is_permutation_of_retained (sortSlice : List Metadata → List Metadata)
    (hsort : SortSliceContract sortSlice) (cat : Category) (records : List Metadata) :
    List.Perm (loader sortSlice cat records) (records.filter (retained cat))
    ∧ (∀ m, (loader sortSlice cat records).count m
        = (records.filter (retained cat)).count m)
    ∧ (∀ id : String, (loader sortSlice cat records).countP (fun m => m.Id == id)
        = (records.filter (retained cat)).countP (fun m => m.Id == id))
    ∧ (∀ m, retained cat m = false → m ∉ loader sortSlice cat records)
    ∧ (loader sortSlice cat records).length = (records.filter (retained cat)).length
    ∧ (∀ existingIds : List String,
        (report (loader sortSlice cat records) existingIds).summary.printedTotal
          = if (computeMissing (loader sortSlice cat records) existingIds).length = 0
            then none
            else some ((loader sortSlice cat records).length : Int)) := by
  have hp : List.Perm (loader sortSlice cat records) (records.filter (retained cat)) := by
    unfold loader
    rw [loadRecords_eq_filter]
    exact (hsort _).1
  refine ⟨hp, fun m => hp.count_eq m, fun id => hp.countP_eq _, ?_, hp.length_eq, ?_⟩
  · intro m hm hmem
    have := (List.mem_filter.1 (hp.subset hmem)).2
    rw [hm] at this
    exact Bool.noConfusion this
  · intro existingIds
    unfold report summaryLine
    by_cases h : (computeMissing (loader sortSlice cat records) existingIds).length = 0
    · simp [h, Summary.printedTotal]
    · simp [h, Summary.printedTotal]

/-- Witness of C6: two records with the same id and one record of another category,
loaded under `video`. -/
theorem C6_loader_is_permutation_of_retained_witness :
    SortSliceContract stableSortSlice
    ∧ List.Perm
        (loader stableSortSlice Video
          [⟨"a", "", "20200102", "C - Videos"⟩, ⟨"s", "", "20200101", "C - Shorts"⟩,
           ⟨"a", "", "20200101", "C - Videos"⟩])
        ([⟨"a", "", "20200102", "C - Videos"⟩, ⟨"s", "", "20200101", "C - Shorts"⟩,
           ⟨"a", "", "20200101", "C - Videos"⟩].filter (retained Video))
    ∧ loader stableSortSlice Video
          [⟨"a", "", "20200102", "C - Videos"⟩, ⟨"s", "", "20200101", "C - Shorts"⟩,
           ⟨"a", "", "20200101", "C - Videos"⟩]
        = [⟨"a", "", "20200101", "C - Videos"⟩, ⟨"a", "", "20200102", "C - Videos"⟩] :=
  ⟨stableSortSlice_contract,
    (C6_loader_is_permutation_of_retained stableSortSlice stableSortSlice_contract
      Video _).1,
    by decide⟩

/-- C7, as stated, fails: `sort.Slice` promises an ascending result but no stable
one.  On twelve records of one date followed by one earlier record, a sorting
function that meets the whole contract of `sort.Slice` returns the twelve tied
records in the reverse of their input order, so ties are not broken by input
order. -/
theorem C7_stable_order_counterexample :
    SortSliceContract reversingSortSlice
    ∧ loader reversingSortSlice All tiedRecords
      = ⟨"v12", "", "20200101", ""⟩ :: (tiedRecords.take 12).reverse
    ∧ ¬ ((loader reversingSortSlice All tiedRecords).filter
            (fun m => m.Date == "20200102")
          = (tiedRecords.filter (retained All)).filter (fun m => m.Date == "20200102"))
    ∧ ¬ (∀ sortSlice : List Metadata → List Metadata, SortSliceContract sortSlice →
          ∀ (cat : Category) (records : List Metadata) (d : String),
            (loader sortSlice cat records).filter (fun m => m.Date == d)
              = (records.filter (retained cat)).filter (fun m => m.Date == d)) := by
  refine ⟨reversingSortSlice_contract, by decide, by decide, ?_⟩
  intro h
  have h1 := h reversingSortSlice reversingSortSlice_contract All tiedRecords "20200102"
  revert h1
  decide

/-- C7, amended: the loader's output is ascending by uploadDate (no record stands
before one of strictly smaller date), and for every date the output records of that
date are the retained input records of that date, each as often as in the input, in
an order that `sort.Slice` leaves open. -/
theorem C7_ascending_ties_unordered (sortSlice : List Metadata → List Metadata)
    (hsort : SortSliceContract sortSlice) (cat : Category) (records : List Metadata) :
    List.Pairwise (fun a b => a.Date ≤ b.Date) (loader sortSlice cat records)
    ∧ List.Pairwise (fun a b => dateLess b a = false) (loader sortSlice cat records)
    ∧ (∀ d : String,
        List.Perm ((loader sortSlice cat records).filter (fun m => m.Date == d))
          ((records.filter (retained cat)).filter (fun m => m.Date == d))) := by
  have hp : List.Pairwise dateLE (loader sortSlice cat records) := (hsort _).2
  refine ⟨hp.imp (fun {a b} h => (dateLE_iff a b).1 h), hp, fun d => ?_⟩
  apply List.Perm.filter
  unfold loader
  rw [loadRecords_eq_filter]
  exact (hsort _).1

/-- Witness of C7 amended, at the tie-reversing sort and two records of one date. -/
theorem C7_ascending_ties_unordered_witness :
    SortSliceContract reversingSortSlice
    ∧ List.Pairwise (fun a b => a.Date ≤ b.Date)
        (loader reversingSortSlice All
          [⟨"a", "", "20200101", ""⟩, ⟨"b", "", "20200101", ""⟩, ⟨"c", "", "20191231", ""⟩])
    ∧ loader reversingSortSlice All
          [⟨"a", "", "20200101", ""⟩, ⟨"b", "", "20200101", ""⟩, ⟨"c", "", "20191231", ""⟩]
        = [⟨"c", "", "20191231", ""⟩, ⟨"b", "", "20200101", ""⟩, ⟨"a", "", "20200101", ""⟩] :=
  ⟨reversingSortSlice_contract,
    (C7_ascending_ties_unordered reversingSortSlice reversingSortSlice_contract All _).1,
    by decide⟩

/-! ## Claims about the directory scanner -/

/-- C8: a directory name `<first> [<identifier>] <rest>`, with `<first>` one non-empty
token free of white space, `<identifier>` non-empty, free of white space and neither
beginning nor ending with `[` or `]`, and `<rest>` arbitrary, yields exactly
`<identifier>`; scanning a directory of that name yields that one identifier. -/
theorem C8_conventional_name_yields_identifier (first id rest : String)
    (hf1 : first.data ≠ []) (hf2 : ∀ c ∈ first.data, isSpace c = false)
    (_hi1 : id.data ≠ []) (hi2 : ∀ c ∈ id.data, isSpace c = false)
    (hi3 : id.data.head? ≠ some '[' ∧ id.data.head? ≠ some ']')
    (hi4 : id.data.getLast? ≠ some '[' ∧ id.data.getLast? ≠ some ']') :
    extractId (first ++ " [" ++ id ++ "] " ++ rest) = some id
    ∧ scanEntries [⟨first ++ " [" ++ id ++ "] " ++ rest, true⟩] = some [id] := by
  have e : extractId (first ++ " [" ++ id ++ "] " ++ rest) = some id := by
    unfold extractId
    rw [fields_conventional first id rest hf1 hf2 hi2]
    simp only
    rw [trim_brackets_conventional id.data hi3 hi4.2]
  refine ⟨e, ?_⟩
  simp [scanEntries, scanStep, e]

/-- Witness of C8: the name "[20200101] [abc123] Title" yields "abc123". -/
theorem C8_conventional_name_yields_identifier_witness :
    extractId "[20200101] [abc123] Title" = some "abc123"
    ∧ scanEntries [⟨"[20200101] [abc123] Title", true⟩] = some ["abc123"] :=
  C8_conventional_name_yields_identifier "[20200101]" "abc123" "Title"
    (by decide) (by decide) (by decide) (by decide) (by decide) (by decide)

/-- C9, as stated, fails: the second field `[[abc]]` does not yield `[abc]`; both
leading `[` and both trailing `]` are removed and the identifier is `abc`. -/
theorem C9_single_layer_counterexample :
    Fields "x [[abc]]" = ["x", "[[abc]]"]
    ∧ extractId "x [[abc]]" = some "abc"
    ∧ extractId "x [[abc]]" ≠ some "[abc]" := by
  decide

/-- C9, amended: for a directory name with at least two white-space-delimited fields
the extracted identifier is the second field with every leading and trailing `[`
removed and then every leading and trailing `]` removed: the field is
`a ++ c ++ identifier ++ d ++ b` with `a`, `b` runs of `[` and `c`, `d` runs of `]`,
what is left after `a` and `b` neither begins nor ends with `[`, and the identifier
neither begins nor ends with `]`.  So `[[abc]]` yields `abc`. -/
theorem C9_all_enclosing_brackets_stripped (name : String)
    (h : 2 ≤ (Fields name).length) :
    ∃ f r : String, (Fields name)[1]? = some f ∧ extractId name = some r
      ∧ ∃ a b c d : List Char,
          f.data = a ++ (c ++ r.data ++ d) ++ b
          ∧ (∀ x ∈ a, x = '[') ∧ (∀ x ∈ b, x = '[')
          ∧ (∀ x ∈ c, x = ']') ∧ (∀ x ∈ d, x = ']')
          ∧ (c ++ r.data ++ d).head? ≠ some '['
          ∧ (c ++ r.data ++ d).getLast? ≠ some '['
          ∧ r.data.head? ≠ some ']'
          ∧ r.data.getLast? ≠ some ']' := by
  cases hF : Fields name with
  | nil => rw [hF] at h; simp at h
  | cons f0 t =>
    cases t with
    | nil => rw [hF] at h; simp at h
    | cons f t2 =>
      refine ⟨f, Trim (Trim f "[") "]", by simp, by simp [extractId, hF], ?_⟩
      obtain ⟨a, b, hab, ha, hb, hh1, hl1⟩ :=
        trim_decomposition (fun c => "[".data.contains c) f.data
      obtain ⟨c, d, hcd, hc, hd, hh2, hl2⟩ :=
        trim_decomposition (fun c => "]".data.contains c) (Trim f "[").data
      have er : (Trim (Trim f "[") "]").data
          = List.rdropWhile (fun c => "]".data.contains c)
              (List.dropWhile (fun c => "]".data.contains c) (Trim f "[").data) := rfl
      have ei : (Trim f "[").data
          = List.rdropWhile (fun c => "[".data.contains c)
              (List.dropWhile (fun c => "[".data.contains c) f.data) := rfl
      refine ⟨a, b, c, d, ?_, ?_, ?_, ?_, ?_, ?_, ?_, ?_, ?_⟩
      · rw [er, ← hcd, ei]; exact hab
      · intro x hx; exact (mem_cutset_lbracket x).1 (ha x hx)
      · intro x hx; exact (mem_cutset_lbracket x).1 (hb x hx)
      · intro x hx; exact (mem_cutset_rbracket x).1 (hc x hx)
      · intro x hx; exact (mem_cutset_rbracket x).1 (hd x hx)
      · rw [er, ← hcd, ei]
        intro hx
        exact absurd (hh1 _ hx) (by decide)
      · rw [er, ← hcd, ei]
        intro hx
        exact absurd (hl1 _ hx) (by decide)
      · rw [er]
        intro hx
        exact absurd (hh2 _ hx) (by decide)
      · rw [er]
        intro hx
        exact absurd (hl2 _ hx) (by decide)

/-- Witness of C9 amended, at the name "x [[abc]]". -/
theorem C9_all_enclosing_brackets_stripped_witness :
    2 ≤ (Fields "x [[abc]]").length
    ∧ ∃ f r : String, (Fields "x [[abc]]")[1]? = some f ∧ extractId "x [[abc]]" = some r
      ∧ ∃ a b c d : List Char,
          f.data = a ++ (c ++ r.data ++ d) ++ b
          ∧ (∀ x ∈ a, x = '[') ∧ (∀ x ∈ b, x = '[')
          ∧ (∀ x ∈ c, x = ']') ∧ (∀ x ∈ d, x = ']')
          ∧ (c ++ r.data ++ d).head? ≠ some '['
          ∧ (c ++ r.data ++ d).getLast? ≠ some '['
          ∧ r.data.head? ≠ some ']'
          ∧ r.data.getLast? ≠ some ']' :=
  ⟨by decide, C9_all_enclosing_brackets_stripped "x [[abc]]" (by decide)⟩

/-- C10 at a listing whose first directory is named "Title" (one field): the scan
loop panics on `fields[1]`, the identifier of the well-formed second directory is
never extracted and no report is produced, whereas C10 asks for an error for that
entry and a reconciliation of the others. -/
theorem C10_malformed_name_aborts_scan :
    Fields "Title" = ["Title"]
    ∧ extractId "Title" = none
    ∧ extractId "[20200101] [abc123] Title" = some "abc123"
    ∧ scanEntries [⟨"Title", true⟩, ⟨"[20200101] [abc123] Title", true⟩] = none
    ∧ reconcile stableSortSlice All [⟨"abc123", "T", "20200101", "Channel - Videos"⟩]
        [⟨"Title", true⟩, ⟨"[20200101] [abc123] Title", true⟩] = none
    ∧ reconcile stableSortSlice All [⟨"abc123", "T", "20200101", "Channel - Videos"⟩]
        [⟨"[20200101] [abc123] Title", true⟩]
      = some ⟨Summary.noMissing 1, [], []⟩ := by
  decide

/-! ## Claims about the summary figure and the match step -/

/-- C11 at listings with a repeated identifier: with the catalog `a`, `b` and three
directories that all carry the identifier `a`, `missing` is the one record `b` but
the line printed is "Found 3 IDs. Still missing -1 IDs. For a total of 2 IDs"; with
two such directories the figure is 0; and with a catalog that lists `a` twice and one
directory `a` the figure is 2.  In each case `missing` has one record, so the figure
is not the number of missing records and can be negative. -/
theorem C11_still_missing_figure_with_duplicates :
    reconcile stableSortSlice All
        [⟨"a", "", "20200101", ""⟩, ⟨"b", "", "20200102", ""⟩]
        [⟨"[20200101] [a] x", true⟩, ⟨"[20200101] [a] y", true⟩,
         ⟨"[20200101] [a] z", true⟩]
      = some ⟨Summary.stillMissing 3 (-1) 2, [⟨"b", "", "20200102", ""⟩], []⟩
    ∧ reconcile stableSortSlice All
        [⟨"a", "", "20200101", ""⟩, ⟨"b", "", "20200102", ""⟩]
        [⟨"[20200101] [a] x", true⟩, ⟨"[20200101] [a] y", true⟩]
      = some ⟨Summary.stillMissing 2 0 2, [⟨"b", "", "20200102", ""⟩], []⟩
    ∧ reconcile stableSortSlice All
        [⟨"a", "", "20200101", "P - Videos"⟩, ⟨"a", "", "20200101", "P - Live"⟩,
         ⟨"b", "", "20200102", ""⟩]
        [⟨"[20200101] [a] x", true⟩]
      = some ⟨Summary.stillMissing 1 2 3, [⟨"b", "", "20200102", ""⟩], []⟩ := by
  decide

/-- C12: `missing` depends only on the set of scanned identifiers: two scanned lists
with the same elements, in whatever order and multiplicity, give the same `missing`
sequence for every catalog. -/
theorem C12_missing_depends_on_scanned_set (catalog : List Metadata)
    (scanned₁ scanned₂ : List String) (h : ∀ x, x ∈ scanned₁ ↔ x ∈ scanned₂) :
    computeMissing catalog scanned₁ = computeMissing catalog scanned₂ := by
  rw [computeMissing_eq_filter, computeMissing_eq_filter]
  congr 1
  funext m
  have h1 := containsStr_iff scanned₁ m.Id
  have h2 := containsStr_iff scanned₂ m.Id
  have h3 := h m.Id
  cases c1 : containsStr scanned₁ m.Id <;> cases c2 : containsStr scanned₂ m.Id
  · rfl
  · exact absurd (h1.2 (h3.2 (h2.1 c2))) (by simp [c1])
  · exact absurd (h2.2 (h3.1 (h1.1 c1))) (by simp [c2])
  · rfl

/-- Witness of C12: the scanned lists `a, b, a` and `b, a` against a catalog of three
records. -/
theorem C12_missing_depends_on_scanned_set_witness :
    (∀ x, x ∈ ["a", "b", "a"] ↔ x ∈ ["b", "a"])
    ∧ computeMissing
        [⟨"a", "", "20200101", ""⟩, ⟨"c", "", "20200102", ""⟩, ⟨"b", "", "20200103", ""⟩]
        ["a", "b", "a"]
      = computeMissing
        [⟨"a", "", "20200101", ""⟩, ⟨"c", "", "20200102", ""⟩, ⟨"b", "", "20200103", ""⟩]
        ["b", "a"]
    ∧ computeMissing
        [⟨"a", "", "20200101", ""⟩, ⟨"c", "", "20200102", ""⟩, ⟨"b", "", "20200103", ""⟩]
        ["a", "b", "a"]
      = [⟨"c", "", "20200102", ""⟩] :=
  ⟨by intro x; simp [or_comm],
    C12_missing_depends_on_scanned_set _ _ _ (by intro x; simp [or_comm]),
    by decide⟩

/-- C13 under the category `all`: a line that is not well-formed JSON does not
vanish.  The unchecked `json.Unmarshal` leaves the zero record, the loop appends it,
so it is counted in the catalog total and is listed in `missing` (its id is the empty
string); under each of the four other categories the zero record is dropped. -/
theorem C13_unparsable_line_under_all (pre post : List Unmarshalled) :
    loadLines All (pre ++ Unmarshalled.syntaxError :: post)
      = loadLines All pre ++ zeroMetadata :: loadLines All post
    ∧ (loadLines All (pre ++ Unmarshalled.syntaxError :: post)).length
      = (loadLines All (pre ++ post)).length + 1
    ∧ loadLines All [Unmarshalled.syntaxError] = [zeroMetadata]
    ∧ main stableSortSlice
        ⟨2, All, false, false, false, false, true, [Unmarshalled.syntaxError],
          [⟨"[20200101] [abc123] Title", true⟩], false, false⟩
      = Outcome.finished false
          ⟨Summary.stillMissing 1 1 1, [zeroMetadata], ["abc123"]⟩ none false
    ∧ (∀ cat ∈ [Shorts, Video, Livestream, Membership],
        loadLines cat (pre ++ Unmarshalled.syntaxError :: post)
          = loadLines cat (pre ++ post)) := by
  have hz : retained All zeroMetadata = true := by decide
  refine ⟨?_, ?_, by decide, by decide, ?_⟩
  · simp [loadLines, loadRecords_eq_filter, Unmarshalled.syntaxError, hz]
  · simp [loadLines, loadRecords_eq_filter, Unmarshalled.syntaxError, hz]
    omega
  · intro cat hcat
    have hn : retained cat zeroMetadata = false := by
      simp only [List.mem_cons, List.mem_singleton, List.not_mem_nil, or_false] at hcat
      rcases hcat with h | h | h | h <;> subst h <;> decide
    simp [loadLines, loadRecords_eq_filter, Unmarshalled.syntaxError, hn]

/-! ## Claims about the category flag, the scan of files and the dump file -/

/-- C14: `Category.Set(v)` returns, and then returns `nil`, exactly when the
lower-cased `v` is one of all, shorts, video, livestream, membership; the stored
category, and so what `String()` gives, is then that lower-cased name.  For every
other `v` the call panics with "Invalid category: v" and does not return. -/
theorem C14_category_set (ToLower : String → String) (value : String) :
    ((∃ c err, Category.Set ToLower value = SetResult.returned c err)
        ↔ ToLower value ∈ ["all", "shorts", "video", "livestream", "membership"])
    ∧ (∀ c err, Category.Set ToLower value = SetResult.returned c err →
        err = none ∧ c = ToLower value ∧ Category.String c = ToLower value)
    ∧ (ToLower value ∈ ["all", "shorts", "video", "livestream", "membership"] →
        Category.Set ToLower value = SetResult.returned (ToLower value) none)
    ∧ (ToLower value ∉ ["all", "shorts", "video", "livestream", "membership"] →
        Category.Set ToLower value = SetResult.panicked ("Invalid category: " ++ value))
    ∧ Category.Set lowerASCII "SHORTS" = SetResult.returned "shorts" none
    ∧ Category.Set lowerASCII "Movies" = SetResult.panicked "Invalid category: Movies" := by
  have key : (ToLower value ∈ ["all", "shorts", "video", "livestream", "membership"]
        ∧ Category.Set ToLower value = SetResult.returned (ToLower value) none)
      ∨ (ToLower value ∉ ["all", "shorts", "video", "livestream", "membership"]
        ∧ Category.Set ToLower value
            = SetResult.panicked ("Invalid category: " ++ value)) := by
    unfold Category.Set
    by_cases h1 : ToLower value = "all"
    · left; simp [h1, All]
    by_cases h2 : ToLower value = "shorts"
    · left; simp [h2, Shorts]
    by_cases h3 : ToLower value = "video"
    · left; simp [h3, Video]
    by_cases h4 : ToLower value = "livestream"
    · left; simp [h4, Livestream]
    by_cases h5 : ToLower value = "membership"
    · left; simp [h5, Membership]
    right
    simp [h1, h2, h3, h4, h5]
  refine ⟨?_, ?_, ?_, ?_, by decide, by decide⟩
  · constructor
    · rintro ⟨c, err, h⟩
      rcases key with ⟨hm, _⟩ | ⟨_, hp⟩
      · exact hm
      · rw [hp] at h; exact SetResult.noConfusion h
    · intro hm
      rcases key with ⟨_, hr⟩ | ⟨hn, _⟩
      · exact ⟨_, _, hr⟩
      · exact absurd hm hn
  · intro c err h
    rcases key with ⟨_, hr⟩ | ⟨_, hp⟩
    · rw [hr] at h
      injection h with h1 h2
      exact ⟨h2.symm, h1.symm, h1 ▸ rfl⟩
    · rw [hp] at h; exact SetResult.noConfusion h
  · intro hm
    rcases key with ⟨_, hr⟩ | ⟨hn, _⟩
    · exact hr
    · exact absurd hm hn
  · intro hn
    rcases key with ⟨hm, _⟩ | ⟨_, hp⟩
    · exact absurd hm hn
    · exact hp

/-- C15: the scan completes with the identifier list `ids` exactly when `ids` holds,
in listing order and one for one, the identifiers extracted from the entries that are
directories; it completes whenever every directory name has two fields.  An entry
that is a file leaves the list as it is and raises no error whatever its name, so a
listing gives the same result with its files removed. -/
theorem C15_only_directories_scanned (entries : List DirEntry) :
    (∀ ids, scanEntries entries = some ids
        ↔ List.Forall₂ (fun e id => extractId e.Name = some id)
            (entries.filter (fun e => e.IsDir)) ids)
    ∧ scanEntries entries = scanEntries (entries.filter (fun e => e.IsDir))
    ∧ (∀ ids, scanEntries entries = some ids
        → ids.length = (entries.filter (fun e => e.IsDir)).length)
    ∧ (∀ (name : String) (acc : List String), scanStep acc ⟨name, false⟩ = some acc)
    ∧ (∀ (pre post : List DirEntry) (name : String),
        scanEntries (pre ++ ⟨name, false⟩ :: post) = scanEntries (pre ++ post))
    ∧ ((∀ e ∈ entries, e.IsDir = true → 2 ≤ (Fields e.Name).length)
        → ∃ ids, scanEntries entries = some ids)
    ∧ scanEntries [⟨"notes.txt", false⟩, ⟨"[20200101] [abc123] Title", true⟩,
        ⟨"a b c", false⟩] = some ["abc123"] := by
  have spec : ∀ (l : List DirEntry) (ids : List String), scanEntries l = some ids
      ↔ List.Forall₂ (fun e id => extractId e.Name = some id)
          (l.filter (fun e => e.IsDir)) ids := by
    intro l ids
    unfold scanEntries
    rw [foldlM_scanStep_eq_some]
    constructor
    · rintro ⟨x, h1, h2⟩
      simp only [List.nil_append] at h1
      rw [h1]; exact h2
    · intro h; exact ⟨ids, by simp, h⟩
  have same : ∀ l₁ l₂ : List DirEntry,
      l₁.filter (fun e => e.IsDir) = l₂.filter (fun e => e.IsDir)
        → scanEntries l₁ = scanEntries l₂ := by
    intro l₁ l₂ h
    apply Option.ext
    intro ids
    show scanEntries l₁ = some ids ↔ scanEntries l₂ = some ids
    rw [spec, spec, h]
  refine ⟨spec entries, same _ _ (by simp), ?_, ?_, ?_, ?_, by decide⟩
  · intro ids h
    exact ((spec entries ids).1 h).length_eq.symm
  · intro name acc
    simp [scanStep]
  · intro pre post name
    exact same _ _ (by simp)
  · intro h
    obtain ⟨ids, hids⟩ := forall₂_extractId_exists (entries.filter (fun e => e.IsDir))
      (fun e he => h e (List.mem_filter.1 he).1 (List.mem_filter.1 he).2)
    exact ⟨ids, (spec entries ids).2 hids⟩

/-- C16, as stated, fails: a missing record whose id contains a newline is written as
one entry and read back as two lines. -/
theorem C16_round_trip_counterexample :
    dumpText [⟨"a\nb", "", "20200101", ""⟩] = "a\nb\n"
    ∧ splitLines (dumpText [⟨"a\nb", "", "20200101", ""⟩]) = ["a", "b"]
    ∧ splitLines (dumpText [⟨"a\nb", "", "20200101", ""⟩])
        ≠ [⟨"a\nb", "", "20200101", ""⟩].map (fun m : Metadata => m.Id) := by
  decide

/-- C16, amended: for every missing sequence none of whose ids contains a newline
character, the text written to `missing.txt` is each id followed by a newline, in
order and nothing else, and its lines are exactly the ids of `missing`, one per line,
in order. -/
theorem C16_round_trip_without_newlines (missing : List Metadata)
    (h : ∀ m ∈ missing, ∀ c ∈ m.Id.data, c ≠ '\n') :
    (dumpText missing).data = (missing.map (fun m => m.Id.data ++ ['\n'])).flatten
    ∧ splitLines (dumpText missing) = missing.map (fun m => m.Id)
    ∧ (splitLines (dumpText missing)).length = missing.length := by
  have hd : (dumpText missing).data
      = (missing.map (fun m => m.Id.data ++ ['\n'])).flatten := by
    unfold dumpText
    rw [foldl_dumpStep_data]
    rfl
  have hs : splitLines (dumpText missing) = missing.map (fun m => m.Id) := by
    unfold splitLines
    rw [hd, splitLinesLoop_dump missing h]
  exact ⟨hd, hs, by rw [hs, List.length_map]⟩

/-- Witness of C16 amended: two missing records with the ids `abc123` and `xyz999`. -/
theorem C16_round_trip_without_newlines_witness :
    (∀ m ∈ [(⟨"abc123", "", "20200101", ""⟩ : Metadata), ⟨"xyz999", "", "20200102", ""⟩],
        ∀ c ∈ m.Id.data, c ≠ '\n')
    ∧ splitLines (dumpText [⟨"abc123", "", "20200101", ""⟩, ⟨"xyz999", "", "20200102", ""⟩])
      = ["abc123", "xyz999"]
    ∧ dumpText [⟨"abc123", "", "20200101", ""⟩, ⟨"xyz999", "", "20200102", ""⟩]
      = "abc123\nxyz999\n" :=
  ⟨by decide,
    (C16_round_trip_without_newlines
      [⟨"abc123", "", "20200101", ""⟩, ⟨"xyz999", "", "20200102", ""⟩] (by decide)).2.1,
    by decide⟩

/-- C17 at a run whose `ReadDir` fails with an empty listing: the error line is
printed and the run goes on to print "Found 0 IDs. Still missing 1 IDs. For a total
of 1 IDs", the missing record, and to write the dump file, where C17 asks for no
report at all; a failure to open the directory, by contrast, ends the run. -/
theorem C17_readdir_error_still_reports :
    main stableSortSlice
        ⟨2, All, true, false, false, false, true,
          [⟨⟨"abc123", "T", "20200101", "Channel - Videos"⟩, false⟩], [], true, false⟩
      = Outcome.finished true
          ⟨Summary.stillMissing 0 1 1, [⟨"abc123", "T", "20200101", "Channel - Videos"⟩], []⟩
          (some "abc123\n") false
    ∧ main stableSortSlice
        ⟨2, All, true, true, false, false, true,
          [⟨⟨"abc123", "T", "20200101", "Channel - Videos"⟩, false⟩], [], false, false⟩
      = Outcome.fatal "Error while opening provided directory" := by
  decide

/-! ## Claims about distinct identifiers and soundness of the reconciliation -/

/-- C18: when the catalog ids are pairwise distinct and the scanned identifiers are
pairwise distinct, as many scanned identifiers are matched as catalog records, so
the figure len(catalog) - (len(scanned) - len(extra)) is the number of records in
`missing`, lies between 0 and len(catalog), and is what the summary line prints. -/
theorem C18_figure_with_distinct_ids (catalog : List Metadata) (scanned : List String)
    (hc : (catalog.map (fun m => m.Id)).Nodup) (hs : scanned.Nodup) :
    scanned.countP (fun x => decide (∃ m ∈ catalog, m.Id = x))
      = catalog.countP (fun m => decide (m.Id ∈ scanned))
    ∧ (catalog.length : Int)
        - ((scanned.length : Int) - ((computeExtra catalog scanned).length : Int))
      = ((computeMissing catalog scanned).length : Int)
    ∧ 0 ≤ (catalog.length : Int)
        - ((scanned.length : Int) - ((computeExtra catalog scanned).length : Int))
    ∧ (catalog.length : Int)
        - ((scanned.length : Int) - ((computeExtra catalog scanned).length : Int))
      ≤ (catalog.length : Int)
    ∧ (computeMissing catalog scanned ≠ [] →
        (report catalog scanned).summary
          = Summary.stillMissing scanned.length (computeMissing catalog scanned).length
              catalog.length) := by
  have h0 := matched_counts_eq_of_nodup catalog scanned hc hs
  have h1 := length_computeMissing_add catalog scanned
  have h2 := length_computeExtra_add catalog scanned
  have e : (fun x : String => decide (∃ m ∈ catalog, m.Id = x))
      = (fun x => decide (x ∈ catalog.map (fun m => m.Id))) := by
    funext x
    simp only [List.mem_map]
  have hfig : (catalog.length : Int)
        - ((scanned.length : Int) - ((computeExtra catalog scanned).length : Int))
      = ((computeMissing catalog scanned).length : Int) := by
    omega
  refine ⟨by rw [e]; exact h0, hfig, by omega, by omega, ?_⟩
  intro hne
  have hlen : (computeMissing catalog scanned).length ≠ 0 := by
    intro h; exact hne (List.length_eq_zero.1 h)
  simp only [report, summaryLine, beq_iff_eq, hlen, if_false, hfig]

/-- Witness of C18: three catalog records, the directory holding one of them and one
identifier unknown to the catalog. -/
theorem C18_figure_with_distinct_ids_witness :
    (([⟨"a", "", "20200101", ""⟩, ⟨"b", "", "20200102", ""⟩, ⟨"c", "", "20200103", ""⟩]
        : List Metadata).map (fun m => m.Id)).Nodup
    ∧ (["b", "x"] : List String).Nodup
    ∧ ((3 : Nat) : Int)
        - (((["b", "x"] : List String).length : Int)
          - ((computeExtra
              [⟨"a", "", "20200101", ""⟩, ⟨"b", "", "20200102", ""⟩, ⟨"c", "", "20200103", ""⟩]
              ["b", "x"]).length : Int))
      = ((computeMissing
          [⟨"a", "", "20200101", ""⟩, ⟨"b", "", "20200102", ""⟩, ⟨"c", "", "20200103", ""⟩]
          ["b", "x"]).length : Int)
    ∧ report
        [⟨"a", "", "20200101", ""⟩, ⟨"b", "", "20200102", ""⟩, ⟨"c", "", "20200103", ""⟩]
        ["b", "x"]
      = ⟨Summary.stillMissing 2 2 3,
          [⟨"a", "", "20200101", ""⟩, ⟨"c", "", "20200103", ""⟩], ["x"]⟩ :=
  ⟨by decide, by decide,
    (C18_figure_with_distinct_ids
      [⟨"a", "", "20200101", ""⟩, ⟨"b", "", "20200102", ""⟩, ⟨"c", "", "20200103", ""⟩]
      ["b", "x"] (by decide) (by decide)).2.1,
    by decide⟩

/-- C19: `missing` and `extra` are both empty exactly when the catalog ids and the
scanned identifiers are the same set, and no string is both the id of a record in
`missing` and an element of `extra`. -/
theorem C19_reconciliation_soundness (catalog : List Metadata) (scanned : List String) :
    ((computeMissing catalog scanned = [] ∧ computeExtra catalog scanned = [])
        ↔ (∀ x : String, (∃ m ∈ catalog, m.Id = x) ↔ x ∈ scanned))
    ∧ (∀ x : String,
        ¬ ((∃ m ∈ computeMissing catalog scanned, m.Id = x)
            ∧ x ∈ computeExtra catalog scanned)) := by
  constructor
  · constructor
    · rintro ⟨hm, he⟩ x
      constructor
      · rintro ⟨m, hmc, rfl⟩
        by_contra hn
        have : m ∈ computeMissing catalog scanned :=
          (mem_computeMissing catalog scanned m).2 ⟨hmc, hn⟩
        rw [hm] at this
        exact absurd this (List.not_mem_nil _)
      · intro hx
        by_contra hn
        have : x ∈ computeExtra catalog scanned :=
          (mem_computeExtra catalog scanned x).2 ⟨hx, hn⟩
        rw [he] at this
        exact absurd this (List.not_mem_nil _)
    · intro h
      constructor
      · apply List.eq_nil_iff_forall_not_mem.2
        intro m hm
        have := (mem_computeMissing catalog scanned m).1 hm
        exact this.2 ((h m.Id).1 ⟨m, this.1, rfl⟩)
      · apply List.eq_nil_iff_forall_not_mem.2
        intro x hx
        have := (mem_computeExtra catalog scanned x).1 hx
        exact this.2 ((h x).2 this.1)
  · rintro x ⟨⟨m, hm, rfl⟩, hx⟩
    have h1 := (mem_computeMissing catalog scanned m).1 hm
    have h2 := (mem_computeExtra catalog scanned m.Id).1 hx
    exact h1.2 h2.1

end YtDbCompleter






